import Mathlib

/-!
# Verification of `str.h` and `macros.h`

A shallow embedding of the two headers of the repository.

* `str.h`: `str_get_exp` picks the power-of-two exponent of the unit
  (0, 10, ..., 60) and `str_byte_to_human` renders a byte count with one of
  the unit letters `BKMGTPE`.
* `macros.h`: `offsetof`, `container_of`, `ARRAY_SIZE`.

Values of type `unsigned long long` are natural numbers below `2 ^ 64`,
values of type `int` are integers.  Loops are run with fuel and return
`none` when the fuel runs out; the theorems show that this never happens.

For a size below 1024 the exponent is 0 and `str_byte_to_human` evaluates
`1ULL << (exp - 10)` with the count `-10`, which C leaves undefined.  The
value of that shift only divides the fraction 0, so the text that is written
does not depend on it as long as it is not zero; `shl1` fixes it by taking the
count modulo 64.  `str_byte_to_human_ops` lists the operands as they are
evaluated, so that the definedness of every operation can be stated apart
from the text that is written.
-/

namespace Tools

/-! ## Machine arithmetic -/

/-- The C expression `1ULL << k` for an `int` count `k`.  For `0 ≤ k ≤ 63`
this is `2 ^ k`, which fits in 64 bits.  For a count outside `0..63` the C
standard leaves the expression undefined; the embedding then takes the count
modulo 64, as the 64-bit shift instructions of x86-64 and AArch64 do.
Whether a count is in range is recorded separately by `shift_defined`. -/
def shl1 (k : Int) : Nat := 2 ^ (k % 64).toNat

/-- A shift count for which `1ULL << k` is defined by the C standard. -/
def shift_defined (k : Int) : Prop := 0 ≤ k ∧ k ≤ 63

instance (k : Int) : Decidable (shift_defined k) := by
  unfold shift_defined; infer_instance

/-- Conversion of an `unsigned long long` value to `int` (32 bits, two's
complement wrap-around), as in the assignment to `dec`. -/
def to_int (v : Nat) : Int :=
  if v % 2 ^ 32 < 2 ^ 31 then ((v % 2 ^ 32 : Nat) : Int)
  else ((v % 2 ^ 32 : Nat) : Int) - 2 ^ 32

/-! ## `str_get_exp` -/

/-- The `for` loop of `str_get_exp`, entered with the current value of
`shift`.  One unit of fuel is used per evaluation of the loop condition;
the result is the value of `shift` when the loop is left. -/
def str_get_exp_loop (n : Nat) : Nat → Int → Option Int
  | 0, _ => none
  | fuel + 1, shift =>
    if shift ≤ 60 then
      if n < shl1 shift then some shift
      else str_get_exp_loop n fuel (shift + 10)
    else some shift

/-- Translation of `str_get_exp`: `shift` starts at 10 and the function
returns `shift - 10`. -/
def str_get_exp (n : Nat) : Option Int :=
  (str_get_exp_loop n 7 10).map (fun shift => shift - 10)

/-! ## `str_byte_to_human` -/

/-- The string literal `letters`. -/
def letters : String := "BKMGTPE"

/-- Reading `*(s + i)` inside the string literal `s`. -/
def char_at (s : String) (i : Int) : Option Char :=
  if 0 ≤ i then s.data.get? i.toNat else none

/-- The loop `while (frac >= 100) frac /= 10;`, one unit of fuel per
evaluation of the loop condition. -/
def shrink_loop : Nat → Nat → Option Nat
  | 0, _ => none
  | fuel + 1, frac =>
    if frac ≥ 100 then shrink_loop fuel (frac / 10) else some frac

/-- The conversion `%d` of `printf`. -/
def fmt_d (d : Int) : String := toString d

/-- The conversion `%llu` of `printf`. -/
def fmt_llu (u : Nat) : String := toString u

/-- The conversion `%c` of `printf`. -/
def fmt_c (c : Char) : String := String.singleton c

/-- What `snprintf(buf, buf_size, ...)` stores in front of the terminating
NUL when the complete formatted text is `s`: the first `buf_size - 1`
characters (nothing at all for `buf_size = 0`). -/
def snprintf (buf_size : Nat) (s : String) : String :=
  String.mk (s.data.take (buf_size - 1))

/-- Translation of `str_byte_to_human`: the text stored in `buf`. -/
def str_byte_to_human (size : Nat) (buf_size : Nat) : Option String := do
  let exp ← str_get_exp size
  let c ← char_at letters (if exp ≠ 0 then Int.tdiv exp 10 else 0)
  let dec : Int := to_int (if exp ≠ 0 then size / shl1 exp else size)
  let frac : Nat := if exp ≠ 0 then size % shl1 exp else 0
  let frac : Nat := frac / shl1 (exp - 10)
  let frac ← shrink_loop 20 frac
  if frac ≠ 0 then
    some (snprintf buf_size (fmt_d dec ++ "." ++ fmt_llu frac ++ fmt_c c))
  else
    some (snprintf buf_size (fmt_d dec ++ fmt_c c))

/-! ## Operands of the partial C operations -/

/-- The shift counts `k` of the expressions `1ULL << k` evaluated by the loop
of `str_get_exp` (line 16), in the order of evaluation. -/
def str_get_exp_shifts (n : Nat) : Nat → Int → List Int
  | 0, _ => []
  | fuel + 1, shift =>
    if shift ≤ 60 then
      shift :: (if n < shl1 shift then [] else str_get_exp_shifts n fuel (shift + 10))
    else []

/-- The number of times the body of the `for` loop of `str_get_exp` runs
(the iteration that leaves the loop through `break` is counted). -/
def str_get_exp_steps (n : Nat) : Nat → Int → Nat
  | 0, _ => 0
  | fuel + 1, shift =>
    if shift ≤ 60 then
      if n < shl1 shift then 1
      else str_get_exp_steps n fuel (shift + 10) + 1
    else 0

/-- The number of times the body `frac /= 10` of the shrink loop runs. -/
def shrink_loop_steps : Nat → Nat → Nat
  | 0, _ => 0
  | fuel + 1, frac =>
    if frac ≥ 100 then shrink_loop_steps fuel (frac / 10) + 1 else 0

/-- The operands that C restricts, as one call of `str_byte_to_human`
evaluates them. -/
structure Ops where
  /-- The counts `k` of every evaluated `1ULL << k`. -/
  shifts : List Int
  /-- The right operands of every evaluated `/` and `%`. -/
  divisors : List Nat
  /-- The index at which `letters` is read. -/
  index : Int
  deriving DecidableEq

/-- The operands evaluated by `str_byte_to_human(size, ...)`: the shifts of
`str_get_exp`, then lines 30 to 35 of `str.h` in order.  The branches of
`exp ? ... : ...` that are not taken evaluate nothing. -/
def str_byte_to_human_ops (size : Nat) : Option Ops := do
  let exp ← str_get_exp size
  let frac : Nat := if exp ≠ 0 then size % shl1 exp else 0
  let frac : Nat := frac / shl1 (exp - 10)
  some {
    shifts := str_get_exp_shifts size 7 10
      ++ (if exp ≠ 0 then [exp] else [])
      ++ (if exp ≠ 0 then [exp] else [])
      ++ [exp - 10]
    divisors := (if exp ≠ 0 then [10] else [])
      ++ (if exp ≠ 0 then [shl1 exp] else [])
      ++ (if exp ≠ 0 then [shl1 exp] else [])
      ++ [shl1 (exp - 10)]
      ++ List.replicate (shrink_loop_steps 20 frac) 10
    index := if exp ≠ 0 then Int.tdiv exp 10 else 0 }

/-! ## The output pattern -/

/-- The language of the regular expression `^\d+(\.\d{1,2})?[BKMGTPE]$` of
the interface description: one or more decimal digits, optionally a point
followed by one or two decimal digits, then one unit letter. -/
def matches_pattern (s : String) : Prop :=
  ∃ (ip fp : List Char) (u : Char),
    s.data = ip ++ fp ++ [u] ∧
    ip ≠ [] ∧ (∀ c ∈ ip, c.isDigit = true) ∧
    (fp = [] ∨ ∃ ds : List Char, fp = '.' :: ds ∧ 1 ≤ ds.length ∧ ds.length ≤ 2 ∧
      ∀ c ∈ ds, c.isDigit = true) ∧
    u ∈ ['B', 'K', 'M', 'G', 'T', 'P', 'E']

/-! ## `macros.h` -/

/-- A structure type with members named by `M`: the byte offset that the
compiler gives to each member. -/
structure StructType (M : Type) where
  /-- Distance in bytes from the start of the structure to the member. -/
  offset : M → Nat

/-- The address `&((TYPE *)base)->MEMBER`, addresses being integers. -/
def member_addr {M : Type} (T : StructType M) (base : Int) (m : M) : Int :=
  base + (T.offset m : Int)

/-- The macro `offsetof(TYPE, MEMBER)`, `((size_t)&((TYPE *)0)->MEMBER)`. -/
def offsetof {M : Type} (T : StructType M) (m : M) : Nat :=
  (member_addr T 0 m).toNat

/-- The macro `container_of(ptr, type, member)`:
`(type *)((char *)__mptr - offsetof(type, member))` with `__mptr = ptr`. -/
def container_of {M : Type} (ptr : Int) (T : StructType M) (m : M) : Int :=
  let __mptr := ptr
  __mptr - (offsetof T m : Int)

/-- An array object: its number of elements and the size in bytes of one
element. -/
structure CArray where
  /-- Number of elements. -/
  count : Nat
  /-- The value of `sizeof((arr)[0])`. -/
  elem_size : Nat

/-- The value of `sizeof(arr)`. -/
def sizeof_arr (arr : CArray) : Nat := arr.count * arr.elem_size

/-- The value of `sizeof((arr)[0])`. -/
def sizeof_elem (arr : CArray) : Nat := arr.elem_size

/-- The macro `ARRAY_SIZE(arr)`, `(sizeof(arr) / sizeof((arr)[0]))`. -/
def ARRAY_SIZE (arr : CArray) : Nat := sizeof_arr arr / sizeof_elem arr

/-! ## Auxiliary facts -/

theorem shl1_of_nat (k : Nat) (hk : k ≤ 63) : shl1 (k : Int) = 2 ^ k := by
  unfold shl1
  have h : ((k : Int) % 64).toNat = k := by omega
  rw [h]

theorem shl1_pos (k : Int) : 0 < shl1 k := by
  unfold shl1
  exact Nat.pos_pow_of_pos _ (by decide)

/-- The exponent chosen for `n`, written as a chain of comparisons. -/
theorem str_get_exp_eq (n : Nat) :
    str_get_exp n = some
      (if n < 2 ^ 10 then 0 else if n < 2 ^ 20 then 10 else if n < 2 ^ 30 then 20
       else if n < 2 ^ 40 then 30 else if n < 2 ^ 50 then 40
       else if n < 2 ^ 60 then 50 else 60) := by
  have h10 : shl1 10 = 2 ^ 10 := shl1_of_nat 10 (by decide)
  have h20 : shl1 (10 + 10) = 2 ^ 20 := shl1_of_nat 20 (by decide)
  have h30 : shl1 (10 + 10 + 10) = 2 ^ 30 := shl1_of_nat 30 (by decide)
  have h40 : shl1 (10 + 10 + 10 + 10) = 2 ^ 40 := shl1_of_nat 40 (by decide)
  have h50 : shl1 (10 + 10 + 10 + 10 + 10) = 2 ^ 50 := shl1_of_nat 50 (by decide)
  have h60 : shl1 (10 + 10 + 10 + 10 + 10 + 10) = 2 ^ 60 := shl1_of_nat 60 (by decide)
  unfold str_get_exp
  simp only [str_get_exp_loop, h10, h20, h30, h40, h50, h60]
  norm_num
  split_ifs <;> exact ⟨_, rfl, by norm_num⟩

/-- The shrink loop on a value below 1024 stops after at most two divisions. -/
theorem shrink_loop_small (r : Nat) (hr : r < 1024) :
    shrink_loop 20 r
      = some (if r < 100 then r else if r < 1000 then r / 10 else r / 100) := by
  have h3 : r / 10 / 10 = r / 100 := by omega
  have step : ∀ fuel x, shrink_loop (fuel + 1) x
      = if x ≥ 100 then shrink_loop fuel (x / 10) else some x := fun _ _ => rfl
  rw [show (20 : Nat) = 17 + 1 + 1 + 1 from rfl]
  by_cases h100 : r < 100
  · rw [step, if_neg (by omega), if_pos h100]
  · by_cases h1000 : r < 1000
    · rw [step, if_pos (by omega), step, if_neg (by omega), if_neg h100, if_pos h1000]
    · rw [step, if_pos (by omega), step, if_pos (by omega), step, if_neg (by omega),
        if_neg h100, if_neg h1000, h3]

theorem to_int_small (v : Nat) (hv : v < 2 ^ 31) : to_int v = (v : Int) := by
  unfold to_int
  have h : v % 2 ^ 32 = v := Nat.mod_eq_of_lt (by omega)
  rw [h, if_pos hv]

theorem fmt_d_nat (v : Nat) : fmt_d (v : Int) = toString v := rfl

theorem snprintf_fits (buf_size : Nat) (s : String) (h : s.length < buf_size) :
    snprintf buf_size s = s := by
  unfold snprintf
  rw [List.take_of_length_le]
  have : s.data.length = s.length := rfl
  omega

/-- The text produced when the exponent is `k ≥ 10` and the shrink loop
leaves the fraction `f`. -/
theorem human_of_exp (size buf_size k f : Nat) (c : Char) (hk : 10 ≤ k) (hk60 : k ≤ 60)
    (hexp : str_get_exp size = some (k : Int))
    (hc : char_at letters (Int.tdiv (k : Int) 10) = some c)
    (hi : size / 2 ^ k < 2 ^ 31)
    (hf : shrink_loop 20 (size % 2 ^ k / 2 ^ (k - 10)) = some f) :
    str_byte_to_human size buf_size = some (snprintf buf_size
      (if f ≠ 0 then toString (size / 2 ^ k) ++ "." ++ toString f ++ String.singleton c
       else toString (size / 2 ^ k) ++ String.singleton c)) := by
  have hk0 : (k : Int) ≠ 0 := by omega
  have hs1 : shl1 (k : Int) = 2 ^ k := shl1_of_nat k (by omega)
  have hs2 : shl1 ((k : Int) - 10) = 2 ^ (k - 10) := by
    have h := shl1_of_nat (k - 10) (by omega)
    have hcast : ((k - 10 : Nat) : Int) = (k : Int) - 10 := by omega
    rw [hcast] at h
    exact h
  unfold str_byte_to_human
  rw [hexp]
  simp only [Option.bind_eq_bind, Option.some_bind, hk0, ne_eq, not_false_eq_true, if_true,
    hc, hs1, hs2, hf, to_int_small _ hi, fmt_d_nat, fmt_llu, fmt_c]
  split_ifs <;> rfl

/-- The text produced when the exponent is 0. -/
theorem human_of_exp_zero (size buf_size : Nat) (hexp : str_get_exp size = some 0)
    (hi : size < 2 ^ 31) :
    str_byte_to_human size buf_size
      = some (snprintf buf_size (toString size ++ String.singleton 'B')) := by
  unfold str_byte_to_human
  rw [hexp]
  have hc : char_at letters 0 = some 'B' := by decide
  have hz : shrink_loop 20 0 = some 0 := by decide
  simp only [Option.bind_eq_bind, Option.some_bind, ne_eq, not_true_eq_false, if_false,
    hc, Nat.zero_div, hz, to_int_small _ hi, fmt_d_nat, fmt_c]

theorem scaled_remainder_lt (size k : Nat) (hk : 10 ≤ k) :
    size % 2 ^ k / 2 ^ (k - 10) < 1024 := by
  have hpow : (2 : Nat) ^ k = 1024 * 2 ^ (k - 10) := by
    have h : k = 10 + (k - 10) := by omega
    conv_lhs => rw [h, pow_add]
    norm_num
  rw [Nat.div_lt_iff_lt_mul (Nat.pos_pow_of_pos _ (by decide))]
  calc size % 2 ^ k < 2 ^ k := Nat.mod_lt _ (Nat.pos_pow_of_pos _ (by decide))
    _ = 1024 * 2 ^ (k - 10) := hpow

/-- The text produced in tier `e ≥ 1` when the integer part is below 1024. -/
theorem human_of_tier (size buf_size e : Nat) (letter : Char) (he1 : 1 ≤ e) (he6 : e ≤ 6)
    (hexp : str_get_exp size = some ((10 * e : Nat) : Int))
    (hc : letters.data.get? e = some letter)
    (hi : size / 2 ^ (10 * e) < 1024) :
    str_byte_to_human size buf_size = some (snprintf buf_size
      (let i := size / 2 ^ (10 * e)
       let r := size % 2 ^ (10 * e) / 2 ^ (10 * e - 10)
       let f := if r < 100 then r else if r < 1000 then r / 10 else r / 100
       if f ≠ 0 then toString i ++ "." ++ toString f ++ String.singleton letter
       else toString i ++ String.singleton letter)) := by
  have hdiv : Int.tdiv ((10 * e : Nat) : Int) 10 = (e : Int) := by
    rw [Int.tdiv_eq_ediv (by omega) (by omega)]
    omega
  have hc2 : char_at letters (Int.tdiv ((10 * e : Nat) : Int) 10) = some letter := by
    rw [hdiv]
    unfold char_at
    rw [if_pos (by omega)]
    simpa using hc
  exact human_of_exp size buf_size (10 * e) _ letter (by omega) (by omega) hexp hc2
    (by omega) (shrink_loop_small _ (scaled_remainder_lt size (10 * e) (by omega)))

/-- Every size from 1024 on lies in exactly one of the tiers 1..6. -/
theorem str_get_exp_tier (size : Nat) (hlo : 1024 ≤ size) (hhi : size < 2 ^ 64) :
    ∃ e : Nat, 1 ≤ e ∧ e ≤ 6 ∧ str_get_exp size = some ((10 * e : Nat) : Int) ∧
      2 ^ (10 * e) ≤ size ∧ size / 2 ^ (10 * e) < 1024 := by
  rw [str_get_exp_eq]
  norm_num at hhi ⊢
  by_cases h20 : size < 1048576
  · refine ⟨1, by decide, by decide, ?_, ?_, ?_⟩
    · rw [if_neg (by omega), if_pos h20]; rfl
    · norm_num; omega
    · norm_num; omega
  by_cases h30 : size < 1073741824
  · refine ⟨2, by decide, by decide, ?_, ?_, ?_⟩
    · rw [if_neg (by omega), if_neg h20, if_pos h30]; rfl
    · norm_num; omega
    · norm_num; omega
  by_cases h40 : size < 1099511627776
  · refine ⟨3, by decide, by decide, ?_, ?_, ?_⟩
    · rw [if_neg (by omega), if_neg h20, if_neg h30, if_pos h40]; rfl
    · norm_num; omega
    · norm_num; omega
  by_cases h50 : size < 1125899906842624
  · refine ⟨4, by decide, by decide, ?_, ?_, ?_⟩
    · rw [if_neg (by omega), if_neg h20, if_neg h30, if_neg h40, if_pos h50]; rfl
    · norm_num; omega
    · norm_num; omega
  by_cases h60 : size < 1152921504606846976
  · refine ⟨5, by decide, by decide, ?_, ?_, ?_⟩
    · rw [if_neg (by omega), if_neg h20, if_neg h30, if_neg h40, if_neg h50, if_pos h60]; rfl
    · norm_num; omega
    · norm_num; omega
  · refine ⟨6, by decide, by decide, ?_, ?_, ?_⟩
    · rw [if_neg (by omega), if_neg h20, if_neg h30, if_neg h40, if_neg h50, if_neg h60]; rfl
    · norm_num; omega
    · norm_num; omega

theorem letters_get (e : Nat) (he6 : e ≤ 6) : ∃ c : Char, letters.data.get? e = some c := by
  interval_cases e <;> exact ⟨_, rfl⟩

/-! ### Decimal numerals -/

theorem digitChar_isDigit (m : Nat) (hm : m < 10) : (Nat.digitChar m).isDigit = true := by
  interval_cases m <;> rfl

theorem toDigitsCore_isDigit (fuel : Nat) : ∀ (n : Nat) (ds : List Char),
    (∀ c ∈ ds, c.isDigit = true) →
    ∀ c ∈ Nat.toDigitsCore 10 fuel n ds, c.isDigit = true := by
  induction fuel with
  | zero => intro n ds h; simpa [Nat.toDigitsCore] using h
  | succ fuel ih =>
    intro n ds h
    have hd : (Nat.digitChar (n % 10)).isDigit = true :=
      digitChar_isDigit _ (Nat.mod_lt _ (by decide))
    have hcons : ∀ c ∈ Nat.digitChar (n % 10) :: ds, c.isDigit = true := by
      intro c hc
      rcases List.mem_cons.mp hc with rfl | hc
      · exact hd
      · exact h c hc
    simp only [Nat.toDigitsCore]
    split
    · exact hcons
    · exact ih _ _ hcons

theorem toDigitsCore_ne_nil (fuel : Nat) : ∀ (n : Nat) (ds : List Char),
    ds ≠ [] → Nat.toDigitsCore 10 fuel n ds ≠ [] := by
  induction fuel with
  | zero => intro n ds h; simpa [Nat.toDigitsCore] using h
  | succ fuel ih =>
    intro n ds _
    simp only [Nat.toDigitsCore]
    split
    · exact List.cons_ne_nil _ _
    · exact ih _ _ (List.cons_ne_nil _ _)

/-- Every character of the decimal numeral of `n` is a digit. -/
theorem toString_isDigit (n : Nat) : ∀ c ∈ (toString n).data, c.isDigit = true := by
  show ∀ c ∈ (Nat.repr n).data, c.isDigit = true
  unfold Nat.repr Nat.toDigits
  exact toDigitsCore_isDigit _ _ _ (by simp)

/-- The decimal numeral of `n` is not empty. -/
theorem toString_ne_nil (n : Nat) : (toString n).data ≠ [] := by
  show (Nat.repr n).data ≠ []
  unfold Nat.repr Nat.toDigits
  simp only [Nat.toDigitsCore]
  split
  · exact List.cons_ne_nil _ _
  · exact toDigitsCore_ne_nil _ _ _ (List.cons_ne_nil _ _)

/-- The decimal numeral of a number below `10 ^ e` has at most `e` characters. -/
theorem toString_length_le (n e : Nat) (he : 0 < e) (hn : n < 10 ^ e) :
    (toString n).data.length ≤ e :=
  Nat.repr_length n e he hn

theorem getLast_append_singleton (a : String) (c : Char) :
    (a ++ String.singleton c).data.getLast? = some c := by
  rw [String.data_append]
  exact List.getLast?_concat _

/-! ### The shape of the output -/

/-- For every 64-bit size the formatted text consists of the numeral of the
integer part `i < 1024`, a point and the numeral of the fraction `f < 100`
when `f ≠ 0`, and the unit letter of the tier `e`. -/
theorem human_shape (size : Nat) (hsize : size < 2 ^ 64) :
    ∃ (e i f : Nat) (c : Char), e ≤ 6 ∧
      str_get_exp size = some ((10 * e : Nat) : Int) ∧
      letters.data.get? e = some c ∧
      i = (if e = 0 then size else size / 2 ^ (10 * e)) ∧
      i < 1024 ∧ f < 100 ∧
      ∀ buf_size : Nat, str_byte_to_human size buf_size = some (snprintf buf_size
        (if f ≠ 0 then toString i ++ "." ++ toString f ++ String.singleton c
         else toString i ++ String.singleton c)) := by
  by_cases hlo : size < 1024
  · have hexp : str_get_exp size = some 0 := by
      rw [str_get_exp_eq, if_pos (by norm_num; omega)]
    refine ⟨0, size, 0, 'B', by decide, hexp, rfl, rfl, hlo, by decide, fun buf_size => ?_⟩
    exact human_of_exp_zero size buf_size hexp (by omega)
  · obtain ⟨e, he1, he6, hexp, _, hi⟩ := str_get_exp_tier size (by omega) hsize
    obtain ⟨c, hc⟩ := letters_get e he6
    have hr := scaled_remainder_lt size (10 * e) (by omega)
    refine ⟨e, size / 2 ^ (10 * e), _, c, he6, hexp, hc, ?_, hi, ?_,
      fun buf_size => human_of_tier size buf_size e c he1 he6 hexp hc hi⟩
    · rw [if_neg (by omega)]
    · split_ifs <;> omega

theorem letters_ne_point : ∀ c ∈ letters.data, c ≠ '.' := by decide

/-- No point occurs in a decimal numeral followed by a unit letter. -/
theorem no_point (n : Nat) (c : Char) (hc : c ∈ letters.data) :
    '.' ∉ (toString n ++ String.singleton c).data := by
  intro hmem
  rw [String.data_append, List.mem_append] at hmem
  rcases hmem with hmem | hmem
  · exact absurd (toString_isDigit n _ hmem) (by decide)
  · have : '.' = c := by simpa [String.singleton] using hmem
    exact letters_ne_point c hc this.symm

/-- The exponent chosen for `k` units of tier `e`. -/
theorem str_get_exp_multiple (e k : Nat) (he1 : 1 ≤ e) (he6 : e ≤ 6) (hk1 : 1 ≤ k)
    (hk : k ≤ 1023) : str_get_exp (k * 2 ^ (10 * e)) = some ((10 * e : Nat) : Int) := by
  rw [str_get_exp_eq]
  interval_cases e <;> norm_num <;> split_ifs <;> first | rfl | omega

/-! ### Definedness of the evaluated operations -/

/-- The shifts evaluated by the loop of `str_get_exp` have counts in `0..60`. -/
theorem str_get_exp_shifts_defined (n fuel : Nat) : ∀ shift : Int, 0 ≤ shift →
    ∀ k ∈ str_get_exp_shifts n fuel shift, shift_defined k := by
  induction fuel with
  | zero => intro shift _ k hk; simp [str_get_exp_shifts] at hk
  | succ fuel ih =>
    intro shift h0 k hk
    simp only [str_get_exp_shifts] at hk
    split at hk
    · rcases List.mem_cons.mp hk with rfl | hk
      · exact ⟨h0, by omega⟩
      · split at hk
        · simp at hk
        · exact ih (shift + 10) (by omega) k hk
    · simp at hk

/-- From 1024 on every operation evaluated by `str_byte_to_human` is defined:
the shift counts are in `0..63`, no divisor is zero and the index into
`letters` is in `0..6`. -/
theorem str_byte_to_human_ops_defined (size : Nat) (hlo : 1024 ≤ size) (hhi : size < 2 ^ 64) :
    ∃ ops : Ops, str_byte_to_human_ops size = some ops ∧
      (∀ k ∈ ops.shifts, shift_defined k) ∧ (∀ d ∈ ops.divisors, d ≠ 0) ∧
      0 ≤ ops.index ∧ ops.index ≤ 6 := by
  obtain ⟨e, he1, he6, hexp, _, _⟩ := str_get_exp_tier size hlo hhi
  have hk0 : ((10 * e : Nat) : Int) ≠ 0 := by omega
  have hdiv : Int.tdiv ((10 * e : Nat) : Int) 10 = (e : Int) := by
    rw [Int.tdiv_eq_ediv (by omega) (by omega)]
    omega
  unfold str_byte_to_human_ops
  rw [hexp]
  simp only [Option.bind_eq_bind, Option.some_bind, ne_eq, hk0, not_false_eq_true, if_true, hdiv]
  refine ⟨_, rfl, ?_, ?_, ?_, ?_⟩
  · intro k hk
    simp only [List.mem_append, List.mem_singleton] at hk
    rcases hk with ((hk | hk) | hk) | hk
    · exact str_get_exp_shifts_defined size 7 10 (by decide) k hk
    · subst hk; exact ⟨by omega, by omega⟩
    · subst hk; exact ⟨by omega, by omega⟩
    · subst hk; exact ⟨by omega, by omega⟩
  · intro d hd
    simp only [List.mem_append, List.mem_singleton, List.mem_replicate] at hd
    rcases hd with (((hd | hd) | hd) | hd) | hd
    · subst hd; decide
    · subst hd; exact (shl1_pos _).ne.symm
    · subst hd; exact (shl1_pos _).ne.symm
    · subst hd; exact (shl1_pos _).ne.symm
    · rw [hd.2]; decide
  · show (0 : Int) ≤ (e : Int)
    omega
  · show (e : Int) ≤ 6
    omega

/-- Below 1024 the exponent is 0 and line 33 shifts by the count `-10`. -/
theorem str_byte_to_human_ops_bytes (size : Nat) (hsize : size < 1024) :
    ∃ ops : Ops, str_byte_to_human_ops size = some ops ∧ (-10 : Int) ∈ ops.shifts := by
  have hexp : str_get_exp size = some 0 := by
    rw [str_get_exp_eq, if_pos (by norm_num; omega)]
  unfold str_byte_to_human_ops
  rw [hexp]
  simp only [Option.bind_eq_bind, Option.some_bind]
  exact ⟨_, rfl, by simp⟩

/-! ### Termination of the loops -/

/-- More fuel does not change the result of the scan of `str_get_exp`. -/
theorem str_get_exp_loop_succ (n fuel : Nat) : ∀ (shift r : Int),
    str_get_exp_loop n fuel shift = some r → str_get_exp_loop n (fuel + 1) shift = some r := by
  induction fuel with
  | zero => intro shift r h; simp [str_get_exp_loop] at h
  | succ fuel ih =>
    intro shift r h
    rw [str_get_exp_loop] at h ⊢
    split at h
    · rw [if_pos (by assumption)]
      split at h
      · rw [if_pos (by assumption)]; exact h
      · rw [if_neg (by assumption)]; exact ih _ _ h
    · rw [if_neg (by assumption)]; exact h

theorem str_get_exp_loop_fuel (n : Nat) (shift r : Int) (fuel fuel2 : Nat)
    (hle : fuel ≤ fuel2) (h : str_get_exp_loop n fuel shift = some r) :
    str_get_exp_loop n fuel2 shift = some r := by
  induction fuel2, hle using Nat.le_induction with
  | base => exact h
  | succ k _ ih => exact str_get_exp_loop_succ n k shift r ih

/-- The body of the scan runs once for each of the values 10, 20, ... of
`shift` that are at most 60. -/
theorem str_get_exp_steps_le (n fuel : Nat) : ∀ shift : Int,
    (shift ≤ 60 → 10 * (str_get_exp_steps n fuel shift : Int) ≤ 70 - shift) ∧
    (60 < shift → str_get_exp_steps n fuel shift = 0) := by
  induction fuel with
  | zero =>
    intro shift
    refine ⟨fun hs => ?_, fun _ => rfl⟩
    rw [str_get_exp_steps]
    push_cast; omega
  | succ fuel ih =>
    intro shift
    have h1 := (ih (shift + 10)).1
    have h2 := (ih (shift + 10)).2
    constructor
    · intro hs
      rw [str_get_exp_steps, if_pos hs]
      split
      · push_cast; omega
      · by_cases h50 : shift + 10 ≤ 60
        · have := h1 h50
          push_cast; omega
        · have := h2 (by omega)
          rw [this]
          push_cast; omega
    · intro hs
      rw [str_get_exp_steps, if_neg (by omega)]

/-- More fuel does not change the result of the shrink loop. -/
theorem shrink_loop_succ (fuel : Nat) : ∀ (frac f : Nat),
    shrink_loop fuel frac = some f → shrink_loop (fuel + 1) frac = some f := by
  induction fuel with
  | zero => intro frac f h; simp [shrink_loop] at h
  | succ fuel ih =>
    intro frac f h
    rw [shrink_loop] at h ⊢
    split at h
    · rw [if_pos (by assumption)]; exact ih _ _ h
    · rw [if_neg (by assumption)]; exact h

theorem shrink_loop_fuel (frac f fuel fuel2 : Nat) (hle : fuel ≤ fuel2)
    (h : shrink_loop fuel frac = some f) : shrink_loop fuel2 frac = some f := by
  induction fuel2, hle using Nat.le_induction with
  | base => exact h
  | succ k _ ih => exact shrink_loop_succ k frac f ih

/-- On a value below 1024 the shrink loop ends within three evaluations of
its condition. -/
theorem shrink_loop_three (r : Nat) (hr : r < 1024) :
    shrink_loop 3 r = some (if r < 100 then r else if r < 1000 then r / 10 else r / 100) := by
  have h3 : r / 10 / 10 = r / 100 := by omega
  have step : ∀ fuel x, shrink_loop (fuel + 1) x
      = if x ≥ 100 then shrink_loop fuel (x / 10) else some x := fun _ _ => rfl
  rw [show (3 : Nat) = 0 + 1 + 1 + 1 from rfl]
  by_cases h100 : r < 100
  · rw [step, if_neg (by omega), if_pos h100]
  · by_cases h1000 : r < 1000
    · rw [step, if_pos (by omega), step, if_neg (by omega), if_neg h100, if_pos h1000]
    · rw [step, if_pos (by omega), step, if_pos (by omega), step, if_neg (by omega),
        if_neg h100, if_neg h1000, h3]

/-- On a value below 1024 the body of the shrink loop runs at most twice. -/
theorem shrink_loop_steps_le (r : Nat) (hr : r < 1024) :
    ∀ fuel : Nat, shrink_loop_steps fuel r ≤ 2 := by
  have step : ∀ fuel x, shrink_loop_steps (fuel + 1) x
      = if x ≥ 100 then shrink_loop_steps fuel (x / 10) + 1 else 0 := fun _ _ => rfl
  intro fuel
  rcases fuel with _ | fuel
  · simp [shrink_loop_steps]
  rw [step]
  split
  · rcases fuel with _ | fuel
    · simp [shrink_loop_steps]
    rw [step]
    split
    · rcases fuel with _ | fuel
      · simp [shrink_loop_steps]
      rw [step, if_neg (by omega)]
    · omega
  · omega

/-- The value on which `str_byte_to_human` starts the shrink loop. -/
theorem scaled_frac_lt (size : Nat) (hsize : size < 2 ^ 64) :
    ∃ exp : Int, str_get_exp size = some exp ∧
      (if exp ≠ 0 then size % shl1 exp else 0) / shl1 (exp - 10) < 1024 := by
  by_cases hlo : size < 1024
  · have hexp : str_get_exp size = some 0 := by
      rw [str_get_exp_eq, if_pos (by norm_num; omega)]
    refine ⟨0, hexp, ?_⟩
    rw [if_neg (by simp), Nat.zero_div]
    decide
  · obtain ⟨e, he1, he6, hexp, _, _⟩ := str_get_exp_tier size (by omega) hsize
    have hk0 : ((10 * e : Nat) : Int) ≠ 0 := by omega
    have hs1 : shl1 ((10 * e : Nat) : Int) = 2 ^ (10 * e) := shl1_of_nat _ (by omega)
    have hs2 : shl1 (((10 * e : Nat) : Int) - 10) = 2 ^ (10 * e - 10) := by
      have h := shl1_of_nat (10 * e - 10) (by omega)
      have hcast : ((10 * e - 10 : Nat) : Int) = ((10 * e : Nat) : Int) - 10 := by omega
      rw [hcast] at h
      exact h
    refine ⟨_, hexp, ?_⟩
    rw [if_pos hk0, hs1, hs2]
    exact scaled_remainder_lt size (10 * e) (by omega)

/-! ### The fraction -/

/-- The shrink loop never turns a non-zero value into zero. -/
theorem shrink_loop_ne_zero (fuel : Nat) : ∀ (r f : Nat),
    shrink_loop fuel r = some f → r ≠ 0 → f ≠ 0 := by
  induction fuel with
  | zero => intro r f h; simp [shrink_loop] at h
  | succ fuel ih =>
    intro r f h hr
    rw [shrink_loop] at h
    split at h
    · exact ih _ _ h (by omega)
    · rw [← Option.some.inj h]; exact hr

/-- A quotient is zero exactly when the dividend is below the divisor. -/
theorem div_eq_zero_iff_lt (a b : Nat) (hb : 0 < b) : a / b = 0 ↔ a < b := by
  have h := Nat.div_lt_iff_lt_mul (x := a) (y := 1) hb
  rw [Nat.one_mul] at h
  rw [← h]
  exact Nat.lt_one_iff.symm

theorem point_mem (a b c : String) : '.' ∈ (a ++ "." ++ b ++ c).data := by
  simp [String.data_append]

/-- The text of a size in tier 1 (unit `K`), from the values of its integer
part and of its fraction. -/
theorem human_of_kilo (size buf_size f : Nat) (out : String)
    (hexp : str_get_exp size = some ((10 : Nat) : Int))
    (hf : shrink_loop 20 (size % 2 ^ 10 / 2 ^ (10 - 10)) = some f)
    (hi : size / 2 ^ 10 < 2 ^ 31)
    (hout : (if f ≠ 0 then toString (size / 2 ^ 10) ++ "." ++ toString f ++ String.singleton 'K'
       else toString (size / 2 ^ 10) ++ String.singleton 'K') = out) :
    str_byte_to_human size buf_size = some (snprintf buf_size out) := by
  rw [human_of_exp size buf_size 10 f 'K' (by decide) (by decide) hexp (by decide) hi hf, hout]

/-! ## The claims -/

/-- C1: for every size in `[1024, 2^64)` there is a tier `e` in `1..6` with
`str_get_exp size = 10 * e` such that, for `i = size / 2^(10e)`,
`r = (size mod 2^(10e)) / 2^(10e - 10)` and `f = r`, `r / 10` or `r / 100`
(for `r < 100`, `100 ≤ r < 1000`, `1000 ≤ r`), the complete text formatted by
`str_byte_to_human` is the decimal numeral of `i`, a point and the decimal
numeral of `f` when `f ≠ 0`, and only the numeral of `i` when `f = 0`, followed
by the character of `letters` at index `e`.  Every buffer receives this text
cut to `buf_size - 1` characters, and a buffer with room for it receives
exactly this text. -/
theorem str_byte_to_human_scaled (size : Nat) (hlo : 1024 ≤ size) (hhi : size < 2 ^ 64) :
    ∃ (e : Nat) (letter : Char) (out : String), 1 ≤ e ∧ e ≤ 6 ∧
      str_get_exp size = some ((10 * e : Nat) : Int) ∧
      letters.data.get? e = some letter ∧
      out = (let i := size / 2 ^ (10 * e)
             let r := size % 2 ^ (10 * e) / 2 ^ (10 * e - 10)
             let f := if r < 100 then r else if r < 1000 then r / 10 else r / 100
             if f ≠ 0 then toString i ++ "." ++ toString f ++ String.singleton letter
             else toString i ++ String.singleton letter) ∧
      ∀ buf_size : Nat,
        str_byte_to_human size buf_size = some (snprintf buf_size out) ∧
        (out.length < buf_size → str_byte_to_human size buf_size = some out) := by
  obtain ⟨e, he1, he6, hexp, _, hi⟩ := str_get_exp_tier size hlo hhi
  obtain ⟨letter, hc⟩ := letters_get e he6
  refine ⟨e, letter, _, he1, he6, hexp, hc, rfl, fun buf_size => ?_⟩
  have h := human_of_tier size buf_size e letter he1 he6 hexp hc hi
  refine ⟨h, fun hfit => ?_⟩
  rw [h, snprintf_fits _ _ hfit]

/-- C1 at the size 1536, which is written as `1.51K`; the fraction 5 of the
size 1029 is written as `.5`. -/
theorem str_byte_to_human_scaled_witness :
    (1024 ≤ 1536 ∧ 1536 < 2 ^ 64) ∧
    (∃ (e : Nat) (letter : Char) (out : String), 1 ≤ e ∧ e ≤ 6 ∧
      str_get_exp 1536 = some ((10 * e : Nat) : Int) ∧
      letters.data.get? e = some letter ∧
      out = (let i := 1536 / 2 ^ (10 * e)
             let r := 1536 % 2 ^ (10 * e) / 2 ^ (10 * e - 10)
             let f := if r < 100 then r else if r < 1000 then r / 10 else r / 100
             if f ≠ 0 then toString i ++ "." ++ toString f ++ String.singleton letter
             else toString i ++ String.singleton letter) ∧
      ∀ buf_size : Nat,
        str_byte_to_human 1536 buf_size = some (snprintf buf_size out) ∧
        (out.length < buf_size → str_byte_to_human 1536 buf_size = some out)) ∧
    str_byte_to_human 1536 16 = some "1.51K" ∧ str_byte_to_human 1029 16 = some "1.5K" :=
  ⟨⟨by decide, by decide⟩, str_byte_to_human_scaled 1536 (by decide) (by decide), by decide,
    by decide⟩

/-- C2: for every size below 1024 the complete text formatted by
`str_byte_to_human` is the decimal numeral of `size` followed by the letter
`B`; it contains no decimal point.  Every buffer receives this text cut to
`buf_size - 1` characters, and a buffer with room for it receives exactly this
text. -/
theorem str_byte_to_human_bytes (size : Nat) (hsize : size < 1024) :
    '.' ∉ (toString size ++ "B").data ∧
    ∀ buf_size : Nat,
      str_byte_to_human size buf_size = some (snprintf buf_size (toString size ++ "B")) ∧
      ((toString size ++ "B").length < buf_size →
        str_byte_to_human size buf_size = some (toString size ++ "B")) := by
  have hexp : str_get_exp size = some 0 := by
    rw [str_get_exp_eq, if_pos (by norm_num; omega)]
  constructor
  · intro hmem
    rw [String.data_append, List.mem_append] at hmem
    rcases hmem with hmem | hmem
    · exact absurd (toString_isDigit size _ hmem) (by decide)
    · exact absurd hmem (by decide)
  · intro buf_size
    have h := human_of_exp_zero size buf_size hexp (by omega)
    refine ⟨h, fun hfit => ?_⟩
    rw [h]
    exact congrArg some (snprintf_fits _ _ hfit)

/-- C2 at the sizes 0 and 1023, which are written as `0B` and `1023B`. -/
theorem str_byte_to_human_bytes_witness :
    1023 < 1024 ∧
    ('.' ∉ (toString 1023 ++ "B").data ∧
     ∀ buf_size : Nat,
      str_byte_to_human 1023 buf_size = some (snprintf buf_size (toString 1023 ++ "B")) ∧
      ((toString 1023 ++ "B").length < buf_size →
        str_byte_to_human 1023 buf_size = some (toString 1023 ++ "B"))) ∧
    str_byte_to_human 0 16 = some "0B" ∧ str_byte_to_human 1023 16 = some "1023B" :=
  ⟨by decide, str_byte_to_human_bytes 1023 (by decide), by decide, by decide⟩

/-- C3: `str_get_exp size` is 0 below `2^10`, is `10 * e` for
`2^(10e) ≤ size < 2^(10e + 10)` with `e` in `1..5`, and is 60 from `2^60` on;
the last character of the text formatted by `str_byte_to_human` is the
character of `letters` at index `str_get_exp size / 10`, which is `B` below
`2^10` and `E` from `2^60` on. -/
theorem str_get_exp_ladder (size : Nat) (hsize : size < 2 ^ 64) :
    (size < 2 ^ 10 → str_get_exp size = some 0) ∧
    (∀ e : Nat, 1 ≤ e → e ≤ 5 → 2 ^ (10 * e) ≤ size → size < 2 ^ (10 * e + 10) →
      str_get_exp size = some ((10 * e : Nat) : Int)) ∧
    (2 ^ 60 ≤ size → str_get_exp size = some 60) ∧
    ∃ (exp : Int) (c : Char) (out : String),
      str_get_exp size = some exp ∧
      letters.data.get? (exp / 10).toNat = some c ∧
      (∀ buf_size : Nat,
        str_byte_to_human size buf_size = some (snprintf buf_size out) ∧
        (out.length < buf_size → str_byte_to_human size buf_size = some out)) ∧
      out.data.getLast? = some c ∧
      (size < 2 ^ 10 → c = 'B') ∧ (2 ^ 60 ≤ size → c = 'E') := by
  refine ⟨?_, ?_, ?_, ?_⟩
  · intro h
    rw [str_get_exp_eq, if_pos h]
  · intro e he1 he5 hle hlt
    rw [str_get_exp_eq]
    interval_cases e <;> norm_num at hle hlt ⊢ <;> split_ifs <;> first | rfl | omega
  · intro h
    rw [str_get_exp_eq]
    norm_num at h ⊢
    split_ifs <;> first | rfl | omega
  · obtain ⟨e, i, f, c, he6, hexp, hc, _, _, _, hout⟩ := human_shape size hsize
    have hidx : (((10 * e : Nat) : Int) / 10).toNat = e := by omega
    refine ⟨_, c, _, hexp, by rw [hidx]; exact hc, fun buf_size => ⟨hout buf_size, fun hfit => ?_⟩,
      ?_, ?_, ?_⟩
    · rw [hout buf_size, snprintf_fits _ _ hfit]
    · split_ifs <;> exact getLast_append_singleton _ _
    · intro h
      have h0 : str_get_exp size = some 0 := by rw [str_get_exp_eq, if_pos h]
      rw [hexp] at h0
      have he : e = 0 := by
        have := Option.some.inj h0
        omega
      subst he
      have hB : letters.data.get? 0 = some 'B' := rfl
      rw [hB] at hc
      exact (Option.some.inj hc).symm
    · intro h
      have h60 : str_get_exp size = some 60 := by
        rw [str_get_exp_eq]
        norm_num at h ⊢
        split_ifs <;> first | rfl | omega
      rw [hexp] at h60
      have he : e = 6 := by
        have := Option.some.inj h60
        omega
      subst he
      have hE : letters.data.get? 6 = some 'E' := rfl
      rw [hE] at hc
      exact (Option.some.inj hc).symm

/-- C3 at the size `2^60`, which is written as `1E`. -/
theorem str_get_exp_ladder_witness :
    2 ^ 60 < 2 ^ 64 ∧
    ((2 ^ 60 < 2 ^ 10 → str_get_exp (2 ^ 60) = some 0) ∧
    (∀ e : Nat, 1 ≤ e → e ≤ 5 → 2 ^ (10 * e) ≤ 2 ^ 60 → 2 ^ 60 < 2 ^ (10 * e + 10) →
      str_get_exp (2 ^ 60) = some ((10 * e : Nat) : Int)) ∧
    (2 ^ 60 ≤ 2 ^ 60 → str_get_exp (2 ^ 60) = some 60) ∧
    ∃ (exp : Int) (c : Char) (out : String),
      str_get_exp (2 ^ 60) = some exp ∧
      letters.data.get? (exp / 10).toNat = some c ∧
      (∀ buf_size : Nat,
        str_byte_to_human (2 ^ 60) buf_size = some (snprintf buf_size out) ∧
        (out.length < buf_size → str_byte_to_human (2 ^ 60) buf_size = some out)) ∧
      out.data.getLast? = some c ∧
      (2 ^ 60 < 2 ^ 10 → c = 'B') ∧ (2 ^ 60 ≤ 2 ^ 60 → c = 'E')) ∧
    str_byte_to_human (2 ^ 60) 16 = some "1E" ∧ str_byte_to_human 1023 16 = some "1023B" :=
  ⟨by decide, str_get_exp_ladder (2 ^ 60) (by decide), by decide, by decide⟩

/-- C4: for every 64-bit size with tier `str_get_exp size / 10`, the text
formatted by `str_byte_to_human` starts with the decimal numeral of `size`
itself when the tier is 0 and of `size >> (10 * tier) = size / 2^(10 * tier)`
when the tier is `1..6`; what follows the numeral is the unit letter alone or
a point, the fraction and the unit letter.  The `int` value handed to `%d` is
this number, so it is not negative. -/
theorem str_byte_to_human_integer_part (size : Nat) (hsize : size < 2 ^ 64) :
    ∃ (tier i : Nat) (rest : String),
      tier ≤ 6 ∧ str_get_exp size = some ((10 * tier : Nat) : Int) ∧
      i = (if tier = 0 then size else size >>> (10 * tier)) ∧
      size >>> (10 * tier) = size / 2 ^ (10 * tier) ∧
      to_int (if ((10 * tier : Nat) : Int) ≠ 0 then size / shl1 ((10 * tier : Nat) : Int)
              else size) = (i : Int) ∧
      (0 : Int) ≤ (i : Int) ∧
      ((∃ c : Char, c ∈ letters.data ∧ rest = String.singleton c) ∨
       (∃ (f : Nat) (c : Char), c ∈ letters.data ∧
          rest = "." ++ toString f ++ String.singleton c)) ∧
      ∀ buf_size : Nat,
        str_byte_to_human size buf_size = some (snprintf buf_size (toString i ++ rest)) ∧
        ((toString i ++ rest).length < buf_size →
          str_byte_to_human size buf_size = some (toString i ++ rest)) := by
  obtain ⟨e, i, f, c, he6, hexp, hc, hi, hi1024, _, hout⟩ := human_shape size hsize
  have hcmem : c ∈ letters.data := List.get?_mem hc
  have hshift : size >>> (10 * e) = size / 2 ^ (10 * e) := Nat.shiftRight_eq_div_pow _ _
  have hdec : to_int (if ((10 * e : Nat) : Int) ≠ 0 then size / shl1 ((10 * e : Nat) : Int)
      else size) = (i : Int) := by
    rw [shl1_of_nat _ (by omega)]
    by_cases he : e = 0
    · subst he
      rw [if_pos rfl] at hi
      subst hi
      rw [if_neg (by simp)]
      exact to_int_small _ (by omega)
    · rw [if_neg he] at hi
      rw [if_pos (by omega), ← hi]
      exact to_int_small _ (by omega)
  have hrest : ∀ rest : String,
      (∀ buf_size : Nat,
        str_byte_to_human size buf_size = some (snprintf buf_size (toString i ++ rest))) →
      ∀ buf_size : Nat,
        str_byte_to_human size buf_size = some (snprintf buf_size (toString i ++ rest)) ∧
        ((toString i ++ rest).length < buf_size →
          str_byte_to_human size buf_size = some (toString i ++ rest)) := by
    intro rest h buf_size
    refine ⟨h buf_size, fun hfit => ?_⟩
    rw [h buf_size, snprintf_fits _ _ hfit]
  by_cases hf : f = 0
  · refine ⟨e, i, String.singleton c, he6, hexp, by rw [hshift]; exact hi, hshift, hdec,
      Int.natCast_nonneg _, Or.inl ⟨c, hcmem, rfl⟩, hrest _ (fun buf_size => ?_)⟩
    rw [hout buf_size, if_neg (by simpa using hf)]
  · refine ⟨e, i, "." ++ toString f ++ String.singleton c, he6, hexp, by rw [hshift]; exact hi,
      hshift, hdec, Int.natCast_nonneg _, Or.inr ⟨f, c, hcmem, rfl⟩,
      hrest _ (fun buf_size => ?_)⟩
    rw [hout buf_size, if_pos hf]
    simp only [String.append_assoc]

/-- C4 at the size 1536: tier 1, integer part `1536 >> 10 = 1`. -/
theorem str_byte_to_human_integer_part_witness :
    1536 < 2 ^ 64 ∧
    (∃ (tier i : Nat) (rest : String),
      tier ≤ 6 ∧ str_get_exp 1536 = some ((10 * tier : Nat) : Int) ∧
      i = (if tier = 0 then 1536 else 1536 >>> (10 * tier)) ∧
      1536 >>> (10 * tier) = 1536 / 2 ^ (10 * tier) ∧
      to_int (if ((10 * tier : Nat) : Int) ≠ 0 then 1536 / shl1 ((10 * tier : Nat) : Int)
              else 1536) = (i : Int) ∧
      (0 : Int) ≤ (i : Int) ∧
      ((∃ c : Char, c ∈ letters.data ∧ rest = String.singleton c) ∨
       (∃ (f : Nat) (c : Char), c ∈ letters.data ∧
          rest = "." ++ toString f ++ String.singleton c)) ∧
      ∀ buf_size : Nat,
        str_byte_to_human 1536 buf_size = some (snprintf buf_size (toString i ++ rest)) ∧
        ((toString i ++ rest).length < buf_size →
          str_byte_to_human 1536 buf_size = some (toString i ++ rest))) :=
  ⟨by decide, str_byte_to_human_integer_part 1536 (by decide)⟩

/-- C5: for every tier `e` in `1..6` and every `k` with `1 ≤ k ≤ 1023`
(`k ≤ 15` when `e = 6`, so that the size fits in 64 bits), the text formatted
for `k * 2^(10e)` is the decimal numeral of `k` followed by the character of
`letters` at index `e`, without a decimal point. -/
theorem str_byte_to_human_exact_multiple (e k : Nat) (he1 : 1 ≤ e) (he6 : e ≤ 6)
    (hk1 : 1 ≤ k) (hk : k ≤ 1023) (hk6 : e = 6 → k ≤ 15) :
    k * 2 ^ (10 * e) < 2 ^ 64 ∧
    ∃ letter : Char, letters.data.get? e = some letter ∧
      '.' ∉ (toString k ++ String.singleton letter).data ∧
      ∀ buf_size : Nat,
        str_byte_to_human (k * 2 ^ (10 * e)) buf_size
          = some (snprintf buf_size (toString k ++ String.singleton letter)) ∧
        ((toString k ++ String.singleton letter).length < buf_size →
          str_byte_to_human (k * 2 ^ (10 * e)) buf_size
            = some (toString k ++ String.singleton letter)) := by
  have hpos : 0 < 2 ^ (10 * e) := Nat.pos_pow_of_pos _ (by decide)
  have hdiv : k * 2 ^ (10 * e) / 2 ^ (10 * e) = k := Nat.mul_div_cancel _ hpos
  have hmod : k * 2 ^ (10 * e) % 2 ^ (10 * e) = 0 := Nat.mul_mod_left _ _
  obtain ⟨letter, hc⟩ := letters_get e he6
  constructor
  · by_cases h6 : e = 6
    · have := hk6 h6
      subst h6
      norm_num
      omega
    · have he5 : 10 * e ≤ 50 := by omega
      calc k * 2 ^ (10 * e) ≤ 1023 * 2 ^ 50 :=
            Nat.mul_le_mul hk (Nat.pow_le_pow_right (by decide) he5)
        _ < 2 ^ 64 := by norm_num
  · refine ⟨letter, hc, no_point k letter (List.get?_mem hc), fun buf_size => ?_⟩
    have h := human_of_tier (k * 2 ^ (10 * e)) buf_size e letter he1 he6
      (str_get_exp_multiple e k he1 he6 hk1 hk) hc (by rw [hdiv]; omega)
    simp only [hdiv, hmod, Nat.zero_div] at h
    have h2 : str_byte_to_human (k * 2 ^ (10 * e)) buf_size
        = some (snprintf buf_size (toString k ++ String.singleton letter)) := by
      simpa using h
    refine ⟨h2, fun hfit => ?_⟩
    rw [h2, snprintf_fits _ _ hfit]

/-- C5 at `k = 1` in the tiers 1 and 2: 1024 is written as `1K` and 1048576
as `1M`. -/
theorem str_byte_to_human_exact_multiple_witness :
    (1 ≤ 2 ∧ 2 ≤ 6 ∧ 1 ≤ 1 ∧ 1 ≤ 1023 ∧ (2 = 6 → 1 ≤ 15)) ∧
    (1 * 2 ^ (10 * 2) < 2 ^ 64 ∧
     ∃ letter : Char, letters.data.get? 2 = some letter ∧
      '.' ∉ (toString 1 ++ String.singleton letter).data ∧
      ∀ buf_size : Nat,
        str_byte_to_human (1 * 2 ^ (10 * 2)) buf_size
          = some (snprintf buf_size (toString 1 ++ String.singleton letter)) ∧
        ((toString 1 ++ String.singleton letter).length < buf_size →
          str_byte_to_human (1 * 2 ^ (10 * 2)) buf_size
            = some (toString 1 ++ String.singleton letter))) ∧
    str_byte_to_human 1024 16 = some "1K" ∧ str_byte_to_human 1048576 16 = some "1M" :=
  ⟨⟨by decide, by decide, by decide, by decide, by decide⟩,
    str_byte_to_human_exact_multiple 2 1 (by decide) (by decide) (by decide) (by decide)
      (by decide), by decide, by decide⟩

/-- C6: for every 64-bit size the text formatted by `str_byte_to_human`, as a
buffer with room for it receives it, matches `^\d+(\.\d{1,2})?[BKMGTPE]$`:
one or more decimal digits, optionally a point followed by one or two decimal
digits, then exactly one of the letters `B K M G T P E`. -/
theorem str_byte_to_human_pattern (size : Nat) (hsize : size < 2 ^ 64) :
    ∃ out : String, matches_pattern out ∧
      ∀ buf_size : Nat,
        str_byte_to_human size buf_size = some (snprintf buf_size out) ∧
        (out.length < buf_size → str_byte_to_human size buf_size = some out) := by
  obtain ⟨e, i, f, c, _, _, hc, _, _, hf100, hout⟩ := human_shape size hsize
  have hcmem : c ∈ ['B', 'K', 'M', 'G', 'T', 'P', 'E'] := List.get?_mem hc
  refine ⟨_, ?_, fun buf_size => ⟨hout buf_size, fun hfit => ?_⟩⟩
  · by_cases hf : f = 0
    · rw [if_neg (by simpa using hf)]
      exact ⟨(toString i).data, [], c, by simp [String.data_append, String.singleton],
        toString_ne_nil i, toString_isDigit i, Or.inl rfl, hcmem⟩
    · rw [if_pos hf]
      refine ⟨(toString i).data, '.' :: (toString f).data, c,
        by simp [String.data_append, String.singleton],
        toString_ne_nil i, toString_isDigit i, Or.inr ⟨(toString f).data, rfl, ?_, ?_,
          toString_isDigit f⟩, hcmem⟩
      · exact List.length_pos.mpr (toString_ne_nil f)
      · exact toString_length_le f 2 (by decide) (by norm_num; omega)
  · rw [hout buf_size, snprintf_fits _ _ hfit]

/-- C6 at the size `2^64 - 1`, which is written as `15.10E`. -/
theorem str_byte_to_human_pattern_witness :
    2 ^ 64 - 1 < 2 ^ 64 ∧
    (∃ out : String, matches_pattern out ∧
      ∀ buf_size : Nat,
        str_byte_to_human (2 ^ 64 - 1) buf_size = some (snprintf buf_size out) ∧
        (out.length < buf_size → str_byte_to_human (2 ^ 64 - 1) buf_size = some out)) ∧
    str_byte_to_human (2 ^ 64 - 1) 16 = some "15.10E" :=
  ⟨by decide, str_byte_to_human_pattern (2 ^ 64 - 1) (by decide), by decide⟩

/-- C7 (fails on the code): for the size 0 `str_get_exp` returns 0, and line
33 of `str.h` evaluates `1ULL << (exp - 10)` with the count `-10`, which is
not in `0..63`.  So it is not true that every shift count evaluated by
`str_byte_to_human` lies in `0..63` for every 64-bit size. -/
theorem str_byte_to_human_ops_zero :
    str_byte_to_human_ops 0
      = some { shifts := [10, -10], divisors := [shl1 (-10)], index := 0 } ∧
    ¬ shift_defined (-10) ∧
    ¬ (∀ size : Nat, size < 2 ^ 64 →
        ∃ ops : Ops, str_byte_to_human_ops size = some ops ∧
          (∀ k ∈ ops.shifts, shift_defined k) ∧ (∀ d ∈ ops.divisors, d ≠ 0) ∧
          0 ≤ ops.index ∧ ops.index ≤ 6) := by
  have h0 : str_byte_to_human_ops 0
      = some { shifts := [10, -10], divisors := [shl1 (-10)], index := 0 } := by decide
  refine ⟨h0, by decide, fun h => ?_⟩
  obtain ⟨ops, hops, hshifts, _, _, _⟩ := h 0 (by decide)
  rw [h0] at hops
  have hops2 := Option.some.inj hops
  subst hops2
  exact absurd (hshifts (-10) (by simp)) (by decide)

/-- C8: `container_of` inverts member addressing.  With integer addresses,
for a structure at base address `b` the member `m` lies at
`b + offsetof(type, m)`, and `container_of` applied to that address returns
`b`; on any pointer it subtracts exactly `offsetof(type, m)`. -/
theorem container_of_member_addr {M : Type} (T : StructType M) (m : M) (b : Int) :
    member_addr T b m = b + (offsetof T m : Int) ∧
    container_of (b + (offsetof T m : Int)) T m = b ∧
    container_of (member_addr T b m) T m = b ∧
    ∀ ptr : Int, container_of ptr T m = ptr - (offsetof T m : Int) := by
  have hoff : (offsetof T m : Int) = (T.offset m : Int) := by
    unfold offsetof member_addr
    omega
  refine ⟨?_, ?_, ?_, fun ptr => rfl⟩
  · rw [hoff]; rfl
  · show b + (offsetof T m : Int) - (offsetof T m : Int) = b
    omega
  · show b + (T.offset m : Int) - (offsetof T m : Int) = b
    omega

/-- C9: for an array of `n` elements of `s > 0` bytes each, `sizeof(arr)` is
`n * s` and `ARRAY_SIZE(arr) = (n * s) / s = n`. -/
theorem ARRAY_SIZE_eq_count (arr : CArray) (hs : 0 < arr.elem_size) :
    sizeof_arr arr = arr.count * arr.elem_size ∧
    ARRAY_SIZE arr = arr.count * arr.elem_size / arr.elem_size ∧
    ARRAY_SIZE arr = arr.count := by
  refine ⟨rfl, rfl, ?_⟩
  unfold ARRAY_SIZE sizeof_arr sizeof_elem
  exact Nat.mul_div_cancel _ hs

/-- C9 at an array of 5 elements of 4 bytes. -/
theorem ARRAY_SIZE_eq_count_witness :
    0 < (CArray.mk 5 4).elem_size ∧
    (sizeof_arr (CArray.mk 5 4) = (CArray.mk 5 4).count * (CArray.mk 5 4).elem_size ∧
     ARRAY_SIZE (CArray.mk 5 4)
       = (CArray.mk 5 4).count * (CArray.mk 5 4).elem_size / (CArray.mk 5 4).elem_size ∧
     ARRAY_SIZE (CArray.mk 5 4) = (CArray.mk 5 4).count) :=
  ⟨by decide, ARRAY_SIZE_eq_count (CArray.mk 5 4) (by decide)⟩

/-- C10: for every size from 1024 on (below `2^64`) with
`exp = str_get_exp size`, the scaled remainder
`(size mod 2^exp) / 2^(exp - 10)` is below 1024, the shrink loop started on
it ends, and it ends with a fraction of at most 99, whose numeral has one or
two digits. -/
theorem scaled_remainder_bounds (size : Nat) (hlo : 1024 ≤ size) (hhi : size < 2 ^ 64) :
    ∃ (exp : Int) (f : Nat), str_get_exp size = some exp ∧ 10 ≤ exp ∧ exp ≤ 60 ∧
      shl1 exp = 2 ^ exp.toNat ∧ shl1 (exp - 10) = 2 ^ (exp.toNat - 10) ∧
      size % 2 ^ exp.toNat / 2 ^ (exp.toNat - 10) < 1024 ∧
      shrink_loop 20 (size % shl1 exp / shl1 (exp - 10)) = some f ∧
      f ≤ 99 ∧
      1 ≤ (fmt_llu f).length ∧ (fmt_llu f).length ≤ 2 ∧
      ∀ c ∈ (fmt_llu f).data, c.isDigit = true := by
  obtain ⟨e, he1, he6, hexp, _, _⟩ := str_get_exp_tier size hlo hhi
  have htoNat : (((10 * e : Nat) : Int)).toNat = 10 * e := Int.toNat_ofNat _
  have hs1 : shl1 ((10 * e : Nat) : Int) = 2 ^ (10 * e) := shl1_of_nat _ (by omega)
  have hs2 : shl1 (((10 * e : Nat) : Int) - 10) = 2 ^ (10 * e - 10) := by
    have h := shl1_of_nat (10 * e - 10) (by omega)
    have hcast : ((10 * e - 10 : Nat) : Int) = ((10 * e : Nat) : Int) - 10 := by omega
    rw [hcast] at h
    exact h
  have hr := scaled_remainder_lt size (10 * e) (by omega)
  have hf : (if size % 2 ^ (10 * e) / 2 ^ (10 * e - 10) < 100
        then size % 2 ^ (10 * e) / 2 ^ (10 * e - 10)
      else if size % 2 ^ (10 * e) / 2 ^ (10 * e - 10) < 1000
        then size % 2 ^ (10 * e) / 2 ^ (10 * e - 10) / 10
      else size % 2 ^ (10 * e) / 2 ^ (10 * e - 10) / 100) ≤ 99 := by
    split_ifs <;> omega
  refine ⟨_, _, hexp, by omega, by omega, by rw [htoNat]; exact hs1,
    by rw [htoNat]; exact hs2, by rw [htoNat]; exact hr,
    by rw [hs1, hs2]; exact shrink_loop_small _ hr, hf, ?_, ?_, ?_⟩
  · exact List.length_pos.mpr (toString_ne_nil _)
  · exact toString_length_le _ 2 (by decide) (by norm_num; omega)
  · exact toString_isDigit _

/-- C10 at the size `2^64 - 1`: the scaled remainder is 1023 and the
fraction left by the shrink loop is 10. -/
theorem scaled_remainder_bounds_witness :
    (1024 ≤ 2 ^ 64 - 1 ∧ 2 ^ 64 - 1 < 2 ^ 64) ∧
    (∃ (exp : Int) (f : Nat), str_get_exp (2 ^ 64 - 1) = some exp ∧ 10 ≤ exp ∧ exp ≤ 60 ∧
      shl1 exp = 2 ^ exp.toNat ∧ shl1 (exp - 10) = 2 ^ (exp.toNat - 10) ∧
      (2 ^ 64 - 1) % 2 ^ exp.toNat / 2 ^ (exp.toNat - 10) < 1024 ∧
      shrink_loop 20 ((2 ^ 64 - 1) % shl1 exp / shl1 (exp - 10)) = some f ∧
      f ≤ 99 ∧
      1 ≤ (fmt_llu f).length ∧ (fmt_llu f).length ≤ 2 ∧
      ∀ c ∈ (fmt_llu f).data, c.isDigit = true) ∧
    shrink_loop 20 ((2 ^ 64 - 1) % 2 ^ 60 / 2 ^ 50) = some 10 :=
  ⟨⟨by decide, by decide⟩, scaled_remainder_bounds (2 ^ 64 - 1) (by decide) (by decide),
    by decide⟩

/-- C11: both loops end for every 64-bit size.  The body of the scan of
`str_get_exp` runs at most 6 times, and seven evaluations of its condition
are enough for the scan to return; the body of the shrink loop of
`str_byte_to_human` runs at most 4 times (in fact at most twice), and five
evaluations of its condition are enough for it to return; so
`str_byte_to_human` returns. -/
theorem loops_terminate (size : Nat) (hsize : size < 2 ^ 64) :
    (∀ fuel : Nat, str_get_exp_steps size fuel 10 ≤ 6) ∧
    (∃ shift : Int, ∀ fuel : Nat, 7 ≤ fuel → str_get_exp_loop size fuel 10 = some shift) ∧
    (∃ exp : Int, str_get_exp size = some exp ∧
      (∀ fuel : Nat, shrink_loop_steps fuel
        ((if exp ≠ 0 then size % shl1 exp else 0) / shl1 (exp - 10)) ≤ 4) ∧
      (∀ fuel : Nat, shrink_loop_steps fuel
        ((if exp ≠ 0 then size % shl1 exp else 0) / shl1 (exp - 10)) ≤ 2) ∧
      ∃ f : Nat, ∀ fuel : Nat, 5 ≤ fuel → shrink_loop fuel
        ((if exp ≠ 0 then size % shl1 exp else 0) / shl1 (exp - 10)) = some f) ∧
    ∀ buf_size : Nat, ∃ out : String, str_byte_to_human size buf_size = some out := by
  refine ⟨fun fuel => ?_, ?_, ?_, fun buf_size => ?_⟩
  · have h := (str_get_exp_steps_le size fuel 10).1 (by decide)
    omega
  · have h := str_get_exp_eq size
    unfold str_get_exp at h
    cases hloop : str_get_exp_loop size 7 10 with
    | none => rw [hloop] at h; simp at h
    | some shift =>
      exact ⟨shift, fun fuel hfuel => str_get_exp_loop_fuel size 10 shift 7 fuel hfuel hloop⟩
  · obtain ⟨exp, hexp, hr⟩ := scaled_frac_lt size hsize
    refine ⟨exp, hexp, fun fuel => ?_, fun fuel => shrink_loop_steps_le _ hr fuel,
      _, fun fuel hfuel => shrink_loop_fuel _ _ 3 fuel (by omega) (shrink_loop_three _ hr)⟩
    have := shrink_loop_steps_le _ hr fuel
    omega
  · obtain ⟨e, i, f, c, _, _, _, _, _, _, hout⟩ := human_shape size hsize
    exact ⟨_, hout buf_size⟩

/-- C11 at the size `2^64 - 1`: the scan runs its body 6 times and the shrink
loop runs its body twice (1023, 102, 10). -/
theorem loops_terminate_witness :
    2 ^ 64 - 1 < 2 ^ 64 ∧
    ((∀ fuel : Nat, str_get_exp_steps (2 ^ 64 - 1) fuel 10 ≤ 6) ∧
    (∃ shift : Int, ∀ fuel : Nat, 7 ≤ fuel →
      str_get_exp_loop (2 ^ 64 - 1) fuel 10 = some shift) ∧
    (∃ exp : Int, str_get_exp (2 ^ 64 - 1) = some exp ∧
      (∀ fuel : Nat, shrink_loop_steps fuel
        ((if exp ≠ 0 then (2 ^ 64 - 1) % shl1 exp else 0) / shl1 (exp - 10)) ≤ 4) ∧
      (∀ fuel : Nat, shrink_loop_steps fuel
        ((if exp ≠ 0 then (2 ^ 64 - 1) % shl1 exp else 0) / shl1 (exp - 10)) ≤ 2) ∧
      ∃ f : Nat, ∀ fuel : Nat, 5 ≤ fuel → shrink_loop fuel
        ((if exp ≠ 0 then (2 ^ 64 - 1) % shl1 exp else 0) / shl1 (exp - 10)) = some f) ∧
    ∀ buf_size : Nat, ∃ out : String, str_byte_to_human (2 ^ 64 - 1) buf_size = some out) ∧
    str_get_exp_steps (2 ^ 64 - 1) 7 10 = 6 ∧
    shrink_loop_steps 20 ((2 ^ 64 - 1) % shl1 60 / shl1 (60 - 10)) = 2 :=
  ⟨by decide, loops_terminate (2 ^ 64 - 1) (by decide), by decide, by decide⟩

/-- C12 as stated fails at the size 0: the tier of 0 is 0, although
`0 < 2^(10 * 6 + 10)` holds for the larger index 6, so the tier is not the
largest index `e` in `0..6` with `size < 2^(10e + 10)`. -/
theorem str_get_exp_not_largest :
    str_get_exp 0 = some 0 ∧
    ¬ (∃ t : Nat, str_get_exp 0 = some ((10 * t : Nat) : Int) ∧ t ≤ 6 ∧
        0 < 2 ^ (10 * t + 10) ∧
        ∀ e : Nat, e ≤ 6 → 0 < 2 ^ (10 * e + 10) → e ≤ t) := by
  have h0 : str_get_exp 0 = some 0 := by decide
  refine ⟨h0, ?_⟩
  rintro ⟨t, ht, _, _, hmax⟩
  rw [h0] at ht
  have h6 : 6 ≤ t := hmax 6 (by decide) (by decide)
  have := Option.some.inj ht
  omega

/-- C12 as amended: for every 64-bit size the tier `str_get_exp size / 10` is
the smallest index `e` with `size < 2^(10e + 10)`; it is at most 6, and the
index 6 always qualifies, so no clamping takes place. -/
theorem str_get_exp_smallest (size : Nat) (hsize : size < 2 ^ 64) :
    ∃ t : Nat, str_get_exp size = some ((10 * t : Nat) : Int) ∧ t ≤ 6 ∧
      size < 2 ^ (10 * t + 10) ∧
      (∀ e : Nat, size < 2 ^ (10 * e + 10) → t ≤ e) ∧
      size < 2 ^ (10 * 6 + 10) := by
  have h70 : size < 2 ^ (10 * 6 + 10) :=
    lt_of_lt_of_le hsize (Nat.pow_le_pow_right (by decide) (by decide))
  by_cases hlo : size < 1024
  · have hexp : str_get_exp size = some 0 := by
      rw [str_get_exp_eq, if_pos (by norm_num; omega)]
    exact ⟨0, hexp, by decide, by norm_num; omega, fun e _ => Nat.zero_le e, h70⟩
  · obtain ⟨t, _, ht6, hexp, hge, hi⟩ := str_get_exp_tier size (by omega) hsize
    have hpos : 0 < 2 ^ (10 * t) := Nat.pos_pow_of_pos _ (by decide)
    have hlt : size < 2 ^ (10 * t + 10) := by
      rw [pow_add]
      have := (Nat.div_lt_iff_lt_mul hpos).mp hi
      norm_num
      omega
    refine ⟨t, hexp, ht6, hlt, fun e he => ?_, h70⟩
    by_contra hcon
    have hle : 10 * e + 10 ≤ 10 * t := by omega
    have hpow : 2 ^ (10 * e + 10) ≤ 2 ^ (10 * t) := Nat.pow_le_pow_right (by decide) hle
    omega

/-- C12 as amended, at the size 0 (tier 0). -/
theorem str_get_exp_smallest_witness :
    0 < 2 ^ 64 ∧
    ∃ t : Nat, str_get_exp 0 = some ((10 * t : Nat) : Int) ∧ t ≤ 6 ∧
      0 < 2 ^ (10 * t + 10) ∧
      (∀ e : Nat, 0 < 2 ^ (10 * e + 10) → t ≤ e) ∧
      0 < 2 ^ (10 * 6 + 10) :=
  ⟨by decide, str_get_exp_smallest 0 (by decide)⟩

/-- C13: the shrink loop never turns a non-zero fraction into zero, and for
every 64-bit size with `exp = str_get_exp size` the text formatted by
`str_byte_to_human` contains a decimal point if and only if `1024 ≤ size`
and `2^(exp - 10) ≤ size mod 2^exp`. -/
theorem decimal_point_iff (size : Nat) (hsize : size < 2 ^ 64) :
    (∀ fuel r f : Nat, shrink_loop fuel r = some f → r ≠ 0 → f ≠ 0) ∧
    ∃ (exp : Int) (out : String), str_get_exp size = some exp ∧
      (∀ buf_size : Nat,
        str_byte_to_human size buf_size = some (snprintf buf_size out) ∧
        (out.length < buf_size → str_byte_to_human size buf_size = some out)) ∧
      ('.' ∈ out.data ↔
        1024 ≤ size ∧ 2 ^ (exp.toNat - 10) ≤ size % 2 ^ exp.toNat) := by
  refine ⟨shrink_loop_ne_zero, ?_⟩
  have hfit : ∀ out : String,
      (∀ buf_size : Nat, str_byte_to_human size buf_size = some (snprintf buf_size out)) →
      ∀ buf_size : Nat,
        str_byte_to_human size buf_size = some (snprintf buf_size out) ∧
        (out.length < buf_size → str_byte_to_human size buf_size = some out) := by
    intro out h buf_size
    refine ⟨h buf_size, fun hlen => ?_⟩
    rw [h buf_size, snprintf_fits _ _ hlen]
  by_cases hlo : size < 1024
  · have hexp : str_get_exp size = some 0 := by
      rw [str_get_exp_eq, if_pos (by norm_num; omega)]
    refine ⟨0, _, hexp, hfit _ (fun buf_size => human_of_exp_zero size buf_size hexp (by omega)),
      ?_⟩
    constructor
    · intro hmem
      exact absurd hmem (no_point size 'B' (by decide))
    · intro h
      omega
  · obtain ⟨e, he1, he6, hexp, _, hi⟩ := str_get_exp_tier size (by omega) hsize
    obtain ⟨c, hc⟩ := letters_get e he6
    have htoNat : (((10 * e : Nat) : Int)).toNat = 10 * e := Int.toNat_ofNat _
    have hr := scaled_remainder_lt size (10 * e) (by omega)
    have hzero := div_eq_zero_iff_lt (size % 2 ^ (10 * e)) (2 ^ (10 * e - 10))
      (Nat.pos_pow_of_pos _ (by decide))
    refine ⟨_, _, hexp,
      hfit _ (fun buf_size => human_of_tier size buf_size e c he1 he6 hexp hc hi), ?_⟩
    rw [htoNat]
    simp only []
    by_cases hr0 : size % 2 ^ (10 * e) / 2 ^ (10 * e - 10) = 0
    · have hlt := hzero.mp hr0
      rw [hr0]
      simp only [Nat.zero_lt_succ, if_true, ne_eq, not_true_eq_false, if_false]
      constructor
      · intro hmem
        exact absurd hmem (no_point _ c (List.get?_mem hc))
      · intro h
        omega
    · have hge : 2 ^ (10 * e - 10) ≤ size % 2 ^ (10 * e) := by
        by_contra hcon
        exact hr0 (hzero.mpr (by omega))
      have hf : (if size % 2 ^ (10 * e) / 2 ^ (10 * e - 10) < 100
            then size % 2 ^ (10 * e) / 2 ^ (10 * e - 10)
          else if size % 2 ^ (10 * e) / 2 ^ (10 * e - 10) < 1000
            then size % 2 ^ (10 * e) / 2 ^ (10 * e - 10) / 10
          else size % 2 ^ (10 * e) / 2 ^ (10 * e - 10) / 100) ≠ 0 := by
        split_ifs <;> omega
      rw [if_pos hf]
      exact ⟨fun _ => ⟨by omega, hge⟩, fun _ => point_mem _ _ _⟩

/-- C13 at the size `2^20 + 1`, which is written as `1M` although it is not a
multiple of `2^20`; 1025 is written as `1.1K`. -/
theorem decimal_point_iff_witness :
    2 ^ 20 + 1 < 2 ^ 64 ∧
    ((∀ fuel r f : Nat, shrink_loop fuel r = some f → r ≠ 0 → f ≠ 0) ∧
    ∃ (exp : Int) (out : String), str_get_exp (2 ^ 20 + 1) = some exp ∧
      (∀ buf_size : Nat,
        str_byte_to_human (2 ^ 20 + 1) buf_size = some (snprintf buf_size out) ∧
        (out.length < buf_size → str_byte_to_human (2 ^ 20 + 1) buf_size = some out)) ∧
      ('.' ∈ out.data ↔
        1024 ≤ 2 ^ 20 + 1 ∧ 2 ^ (exp.toNat - 10) ≤ (2 ^ 20 + 1) % 2 ^ exp.toNat)) ∧
    str_byte_to_human (2 ^ 20 + 1) 16 = some "1M" ∧ (2 ^ 20 + 1) % 2 ^ 20 ≠ 0 ∧
    str_byte_to_human 1025 16 = some "1.1K" :=
  ⟨by decide, decimal_point_iff (2 ^ 20 + 1) (by decide), by decide, by decide, by decide⟩

/-- C14: for every 64-bit size with `exp = str_get_exp size`, the value
assigned to `dec` (`size` when `exp = 0`, `size / 2^exp` otherwise) is at most
1023, and at most 15 when `exp = 60`; it is below `2^31`, so the conversion to
`int` leaves it unchanged and `%d` prints its decimal numeral. -/
theorem dec_narrowing_exact (size : Nat) (hsize : size < 2 ^ 64) :
    ∃ (exp : Int) (v : Nat), str_get_exp size = some exp ∧
      v = (if exp ≠ 0 then size / shl1 exp else size) ∧
      v = (if exp = 0 then size else size / 2 ^ exp.toNat) ∧
      v ≤ 1023 ∧ (exp = 60 → v ≤ 15) ∧ v < 2 ^ 31 ∧
      to_int v = (v : Int) ∧ fmt_d (to_int v) = toString v := by
  by_cases hlo : size < 1024
  · have hexp : str_get_exp size = some 0 := by
      rw [str_get_exp_eq, if_pos (by norm_num; omega)]
    refine ⟨0, size, hexp, by simp, by simp, by omega, fun h => absurd h (by decide),
      by omega, to_int_small _ (by omega), ?_⟩
    rw [to_int_small _ (by omega)]
    rfl
  · obtain ⟨e, he1, he6, hexp, _, hi⟩ := str_get_exp_tier size (by omega) hsize
    have hk0 : ((10 * e : Nat) : Int) ≠ 0 := by omega
    have htoNat : (((10 * e : Nat) : Int)).toNat = 10 * e := Int.toNat_ofNat _
    have hs1 : shl1 ((10 * e : Nat) : Int) = 2 ^ (10 * e) := shl1_of_nat _ (by omega)
    refine ⟨_, size / 2 ^ (10 * e), hexp, by rw [if_pos hk0, hs1],
      by rw [if_neg hk0, htoNat], by omega, fun h60 => ?_, by omega,
      to_int_small _ (by omega), ?_⟩
    · have he : e = 6 := by omega
      subst he
      have h16 : size / 2 ^ (10 * 6) < 16 := by
        rw [Nat.div_lt_iff_lt_mul (Nat.pos_pow_of_pos _ (by decide))]
        norm_num at hsize ⊢
        omega
      omega
    · rw [to_int_small _ (by omega)]
      rfl

/-- C14 at the size `2^64 - 1`, where `exp = 60` and `dec = 15`. -/
theorem dec_narrowing_exact_witness :
    2 ^ 64 - 1 < 2 ^ 64 ∧
    (∃ (exp : Int) (v : Nat), str_get_exp (2 ^ 64 - 1) = some exp ∧
      v = (if exp ≠ 0 then (2 ^ 64 - 1) / shl1 exp else 2 ^ 64 - 1) ∧
      v = (if exp = 0 then 2 ^ 64 - 1 else (2 ^ 64 - 1) / 2 ^ exp.toNat) ∧
      v ≤ 1023 ∧ (exp = 60 → v ≤ 15) ∧ v < 2 ^ 31 ∧
      to_int v = (v : Int) ∧ fmt_d (to_int v) = toString v) ∧
    str_get_exp (2 ^ 64 - 1) = some 60 ∧ to_int ((2 ^ 64 - 1) / shl1 60) = 15 :=
  ⟨by decide, dec_narrowing_exact (2 ^ 64 - 1) (by decide), by decide, by decide⟩

/-- C15: for every 64-bit size the complete text formatted by
`str_byte_to_human` has at least 2 and at most 8 characters, so a buffer of
`buf_size ≥ 9` has room for the text and its terminator and receives the text
without truncation. -/
theorem output_length (size : Nat) (hsize : size < 2 ^ 64) :
    ∃ out : String,
      (∀ buf_size : Nat, str_byte_to_human size buf_size = some (snprintf buf_size out)) ∧
      2 ≤ out.length ∧ out.length ≤ 8 ∧
      ∀ buf_size : Nat, 9 ≤ buf_size →
        out.length + 1 ≤ buf_size ∧ str_byte_to_human size buf_size = some out := by
  obtain ⟨e, i, f, c, _, _, _, _, hi, hf, hout⟩ := human_shape size hsize
  have hlen : ∀ n : Nat, (toString n).length = (toString n).data.length := fun _ => rfl
  have hi1 : 1 ≤ (toString i).length := by
    rw [hlen]; exact List.length_pos.mpr (toString_ne_nil i)
  have hi4 : (toString i).length ≤ 4 := by
    rw [hlen]; exact toString_length_le i 4 (by decide) (by norm_num; omega)
  have hf1 : 1 ≤ (toString f).length := by
    rw [hlen]; exact List.length_pos.mpr (toString_ne_nil f)
  have hf2 : (toString f).length ≤ 2 := by
    rw [hlen]; exact toString_length_le f 2 (by decide) (by norm_num; omega)
  have hpoint : (".").length = 1 := rfl
  have hbounds : 2 ≤ (if f ≠ 0 then toString i ++ "." ++ toString f ++ String.singleton c
        else toString i ++ String.singleton c).length ∧
      (if f ≠ 0 then toString i ++ "." ++ toString f ++ String.singleton c
        else toString i ++ String.singleton c).length ≤ 8 := by
    split_ifs
    · simp only [String.length_append, String.length_singleton]
      omega
    · simp only [String.length_append, String.length_singleton, hpoint]
      omega
  refine ⟨_, hout, hbounds.1, hbounds.2, fun buf_size hbuf => ⟨by omega, ?_⟩⟩
  rw [hout buf_size, snprintf_fits _ _ (by omega)]

/-- C15 at the size 1047651, which is written with 8 characters as
`1023.99K`; the size 0 is written with 2 characters as `0B`. -/
theorem output_length_witness :
    1047651 < 2 ^ 64 ∧
    (∃ out : String,
      (∀ buf_size : Nat,
        str_byte_to_human 1047651 buf_size = some (snprintf buf_size out)) ∧
      2 ≤ out.length ∧ out.length ≤ 8 ∧
      ∀ buf_size : Nat, 9 ≤ buf_size →
        out.length + 1 ≤ buf_size ∧ str_byte_to_human 1047651 buf_size = some out) ∧
    str_byte_to_human 1047651 9 = some "1023.99K" ∧ str_byte_to_human 0 9 = some "0B" ∧
    str_byte_to_human 1047651 8 = some "1023.99" :=
  ⟨by decide, output_length 1047651 (by decide), by decide, by decide, by decide⟩

/-- C16: the printed fraction is neither order-preserving nor injective in
the size.  The sizes `1123 < 1124` have the same tier and the same integer
part, and their fractions are 99 and 10 (`1.99K` and `1.10K`); the sizes 1034,
1124 and 2024 have the scaled remainders 10, 100 and 1000 and are all written
as `1.10K`. -/
theorem fraction_not_monotone_not_injective :
    (∃ (a b : Nat) (exp : Int) (fa fb : Nat), a < b ∧ b < 2 ^ 64 ∧
      str_get_exp a = some exp ∧ str_get_exp b = some exp ∧
      a / shl1 exp = b / shl1 exp ∧
      shrink_loop 20 (a % shl1 exp / shl1 (exp - 10)) = some fa ∧
      shrink_loop 20 (b % shl1 exp / shl1 (exp - 10)) = some fb ∧
      fb < fa ∧ (fmt_llu fa).length = (fmt_llu fb).length) ∧
    (∀ buf_size : Nat, str_byte_to_human 1123 buf_size = some (snprintf buf_size "1.99K")) ∧
    (∀ buf_size : Nat, str_byte_to_human 1124 buf_size = some (snprintf buf_size "1.10K")) ∧
    (∀ buf_size : Nat, str_byte_to_human 1034 buf_size = some (snprintf buf_size "1.10K")) ∧
    (∀ buf_size : Nat, str_byte_to_human 2024 buf_size = some (snprintf buf_size "1.10K")) ∧
    str_byte_to_human 1123 16 = some "1.99K" ∧ str_byte_to_human 1124 16 = some "1.10K" ∧
    str_byte_to_human 1034 16 = some "1.10K" ∧ str_byte_to_human 2024 16 = some "1.10K" ∧
    1034 % shl1 10 / shl1 (10 - 10) = 10 ∧ 1124 % shl1 10 / shl1 (10 - 10) = 100 ∧
    2024 % shl1 10 / shl1 (10 - 10) = 1000 ∧
    (∃ a b : Nat, a ≠ b ∧ a < 2 ^ 64 ∧ b < 2 ^ 64 ∧
      a % shl1 10 / shl1 (10 - 10) ≠ b % shl1 10 / shl1 (10 - 10) ∧
      str_get_exp a = some 10 ∧ str_get_exp b = some 10 ∧
      ∀ buf_size : Nat, str_byte_to_human a buf_size = str_byte_to_human b buf_size) := by
  have h1123 : ∀ buf_size : Nat,
      str_byte_to_human 1123 buf_size = some (snprintf buf_size "1.99K") :=
    fun buf_size => human_of_kilo 1123 buf_size 99 _ (by decide) (by decide) (by decide)
      (by decide)
  have h1124 : ∀ buf_size : Nat,
      str_byte_to_human 1124 buf_size = some (snprintf buf_size "1.10K") :=
    fun buf_size => human_of_kilo 1124 buf_size 10 _ (by decide) (by decide) (by decide)
      (by decide)
  have h1034 : ∀ buf_size : Nat,
      str_byte_to_human 1034 buf_size = some (snprintf buf_size "1.10K") :=
    fun buf_size => human_of_kilo 1034 buf_size 10 _ (by decide) (by decide) (by decide)
      (by decide)
  have h2024 : ∀ buf_size : Nat,
      str_byte_to_human 2024 buf_size = some (snprintf buf_size "1.10K") :=
    fun buf_size => human_of_kilo 2024 buf_size 10 _ (by decide) (by decide) (by decide)
      (by decide)
  refine ⟨⟨1123, 1124, 10, 99, 10, by decide, by decide, by decide, by decide, by decide,
      by decide, by decide, by decide, by decide⟩,
    h1123, h1124, h1034, h2024, by decide, by decide, by decide, by decide, by decide,
    by decide, by decide,
    ⟨1034, 2024, by decide, by decide, by decide, by decide, by decide, by decide,
      fun buf_size => ?_⟩⟩
  rw [h1034 buf_size, h2024 buf_size]

end Tools
